import Mathlib

/- Formal model of the iterative statistics accumulators (IterativeMean,
IterativeVariance, the Sobol index accumulator family) exercised by the
iterative_statistics examples, together with an embedding of the
coupling_tools replace and get_regex helpers. Exact rational arithmetic
stands in for floating point arithmetic, so tolerance bounded equalities
of the specification become exact equalities here. -/

namespace OpenTURNS

/-- Observation vectors are finite sequences of rational numbers. -/
abbrev Vec : Type := List ℚ

/-- Modelled from the spec: the IterativeMean accumulator class is not part
of the excerpt (only its callers are); per section 4.1 it stores the fixed
dimension, the running mean vector and the iteration count. -/
structure IterativeMean where
  dimension : ℕ
  mu : Vec
  iteration : ℕ
deriving Repr, DecidableEq

/-- Modelled from the spec: construct(dimension d) creates a zero mean
vector and n = 0. -/
def IterativeMean.new (d : ℕ) : IterativeMean :=
  { dimension := d, mu := List.replicate d 0, iteration := 0 }

/-- Modelled from the spec: componentwise running mean update
mu + (x - mu) / (n + 1), where n is the count before the update. -/
def meanUpdate (n : ℕ) (mu x : ℚ) : ℚ :=
  mu + (x - mu) / (n + 1)

/-- Modelled from the spec: increment(point) requires len(point) = d and
updates mu and n; on a dimension mismatch the call fails and no new state
is produced. -/
def IterativeMean.increment (s : IterativeMean) (point : Vec) : Option IterativeMean :=
  if point.length = s.dimension then
    some { dimension := s.dimension,
           mu := List.zipWith (meanUpdate s.iteration) s.mu point,
           iteration := s.iteration + 1 }
  else
    none

/-- Modelled from the spec: the batch increment is the fold of the single
point increment over the rows of the sample (design note of section 9);
it fails as a whole when any row fails. -/
def IterativeMean.incrementSample (s : IterativeMean) (sample : List Vec) :
    Option IterativeMean :=
  sample.foldlM IterativeMean.increment s

/-- Modelled from the spec: getMean returns the current running mean (the
zero vector while n = 0, the documented policy choice). -/
def IterativeMean.getMean (s : IterativeMean) : Vec := s.mu

/-- Modelled from the spec: getIteration returns the number of observations
absorbed so far. -/
def IterativeMean.getIteration (s : IterativeMean) : ℕ := s.iteration

/-- Modelled from the spec: a caller may split the data into any sequence
of increment calls; feeding them one after the other is a fold of the
batch increment over the list of calls. -/
def IterativeMean.incrementCalls (s : IterativeMean) (calls : List (List Vec)) :
    Option IterativeMean :=
  calls.foldlM IterativeMean.incrementSample s

/-- Modelled from the spec: the IterativeVariance accumulator class is not
part of the excerpt (only its callers are); per section 4.2 it extends the
mean recurrence with the per component sum of squared deviations M2 of
the Welford one pass algorithm. -/
structure IterativeVariance where
  dimension : ℕ
  mu : Vec
  m2 : Vec
  iteration : ℕ
deriving Repr, DecidableEq

/-- Modelled from the spec: construction with a given dimension, zero mean,
zero M2 and n = 0. -/
def IterativeVariance.new (d : ℕ) : IterativeVariance :=
  { dimension := d, mu := List.replicate d 0, m2 := List.replicate d 0, iteration := 0 }

/-- Modelled from the spec: componentwise M2 update of the two step Welford
recurrence, M2 + delta * (x - muNew) where delta = x - muOld and muNew is
the updated running mean. -/
def m2Update (n : ℕ) (mu m2 x : ℚ) : ℚ :=
  m2 + (x - mu) * (x - meanUpdate n mu x)

/-- Modelled from the spec: increment(point) for the variance accumulator
requires len(point) = d and updates mu, M2 and n by the Welford recurrence;
on a dimension mismatch the call fails and no new state is produced. -/
def IterativeVariance.increment (s : IterativeVariance) (point : Vec) :
    Option IterativeVariance :=
  if point.length = s.dimension then
    some { dimension := s.dimension,
           mu := List.zipWith (meanUpdate s.iteration) s.mu point,
           m2 := List.zipWith3 (m2Update s.iteration) s.mu s.m2 point,
           iteration := s.iteration + 1 }
  else
    none

/-- Modelled from the spec: the batch increment is the fold of the single
point increment over the rows of the sample; it fails as a whole when any
row fails. -/
def IterativeVariance.incrementSample (s : IterativeVariance) (sample : List Vec) :
    Option IterativeVariance :=
  sample.foldlM IterativeVariance.increment s

/-- Modelled from the spec: getMean returns the current running mean. -/
def IterativeVariance.getMean (s : IterativeVariance) : Vec := s.mu

/-- Modelled from the spec: getIteration returns the number of observations
absorbed so far. -/
def IterativeVariance.getIteration (s : IterativeVariance) : ℕ := s.iteration

/-- Modelled from the spec: getVariance uses the unbiased denominator n - 1
when n > 1 and returns the zero vector at n less or equal 1 (the documented
explicit policy). -/
def IterativeVariance.getVariance (s : IterativeVariance) : Vec :=
  if 1 < s.iteration then
    s.m2.map (fun v => v / ((s.iteration : ℚ) - 1))
  else
    List.replicate s.dimension 0

/-- Modelled from the spec: getStandardDeviation is the elementwise square
root of the variance; the exact real square root stands in for the floating
point one. -/
noncomputable def IterativeVariance.getStandardDeviation (s : IterativeVariance) : List ℝ :=
  s.getVariance.map (fun v => Real.sqrt (v : ℝ))

/-- Modelled from the spec: feeding the variance accumulator a sequence of
increment calls is a fold of the batch increment over the list of calls. -/
def IterativeVariance.incrementCalls (s : IterativeVariance) (calls : List (List Vec)) :
    Option IterativeVariance :=
  calls.foldlM IterativeVariance.incrementSample s

/-- Closed form sample mean of a list of rationals (0 for the empty list,
by rational division by zero). -/
def sampleMean (l : List ℚ) : ℚ := l.sum / l.length

/-- Closed form unbiased sample variance of a list of rationals. -/
def sampleVariance (l : List ℚ) : ℚ :=
  ((l.map (fun v => (v - sampleMean l) ^ 2)).sum) / ((l.length : ℚ) - 1)

/-- Column j of a list of vectors, read with getD and default 0. -/
def col (j : ℕ) (xs : List Vec) : List ℚ := xs.map (fun x => x.getD j 0)

/-- State invariant of the mean accumulator with respect to the list of
observations absorbed so far. -/
def IterativeMean.represents (s : IterativeMean) (hist : List Vec) : Prop :=
  s.mu.length = s.dimension ∧
  s.iteration = hist.length ∧
  ∀ j, j < s.dimension → s.mu.getD j 0 * hist.length = (col j hist).sum

/-- State invariant of the variance accumulator with respect to the list of
observations absorbed so far: the running mean carries the column sums and
M2 is the sum of squared deviations from the current running mean. -/
def IterativeVariance.represents (s : IterativeVariance) (hist : List Vec) : Prop :=
  s.mu.length = s.dimension ∧
  s.m2.length = s.dimension ∧
  s.iteration = hist.length ∧
  ∀ j, j < s.dimension →
    s.mu.getD j 0 * hist.length = (col j hist).sum ∧
    s.m2.getD j 0 = ((col j hist).map (fun v => (v - s.mu.getD j 0) ^ 2)).sum

/-- Modelled from the spec: the estimator kinds of the Sobol accumulator
family (design note of section 9: a tag rather than an inheritance
hierarchy). -/
inductive SobolEstimator where
  | saltelli
  | jansen
  | martinez
  | mauntzKucherenko
deriving Repr, DecidableEq

/-- Modelled from the spec: one repetition of the Sobol design of
experiments: the A output row, the B output row and the p column swapped
output rows (one per input). -/
structure SobolRep where
  a : Vec
  b : Vec
  e : List Vec
deriving Repr, DecidableEq

/-- Modelled from the spec: the streaming Sobol index accumulator classes
are not part of the excerpt (only their callers are); per sections 3 and
4.3 the state is the estimator kind, the fixed input and output dimensions,
the count of design repetitions absorbed, and the running sums and sums of
products of the A, B and column swapped output columns needed by the closed
form index formulas. Sums indexed by k range over output components, sums
indexed by i and k over input then output components. -/
structure SobolIndices where
  kind : SobolEstimator
  inputDimension : ℕ
  outputDimension : ℕ
  iteration : ℕ
  sumA : ℕ → ℚ
  sumB : ℕ → ℚ
  sumA2 : ℕ → ℚ
  sumB2 : ℕ → ℚ
  sumAB : ℕ → ℚ
  sumE : ℕ → ℕ → ℚ
  sumE2 : ℕ → ℕ → ℚ
  sumAE : ℕ → ℕ → ℚ
  sumBE : ℕ → ℕ → ℚ

/-- Modelled from the spec: construct(inputDimension p, outputDimension q)
with all running sums zero. -/
def SobolIndices.new (kind : SobolEstimator) (p q : ℕ) : SobolIndices :=
  { kind := kind, inputDimension := p, outputDimension := q, iteration := 0,
    sumA := fun _ => 0, sumB := fun _ => 0, sumA2 := fun _ => 0, sumB2 := fun _ => 0,
    sumAB := fun _ => 0, sumE := fun _ _ => 0, sumE2 := fun _ _ => 0,
    sumAE := fun _ _ => 0, sumBE := fun _ _ => 0 }

/-- Modelled from the spec: absorb one design repetition into the running
sums. -/
def SobolIndices.stepRep (s : SobolIndices) (r : SobolRep) : SobolIndices :=
  { s with
    iteration := s.iteration + 1,
    sumA := fun k => s.sumA k + r.a.getD k 0,
    sumB := fun k => s.sumB k + r.b.getD k 0,
    sumA2 := fun k => s.sumA2 k + r.a.getD k 0 ^ 2,
    sumB2 := fun k => s.sumB2 k + r.b.getD k 0 ^ 2,
    sumAB := fun k => s.sumAB k + r.a.getD k 0 * r.b.getD k 0,
    sumE := fun i k => s.sumE i k + (r.e.getD i []).getD k 0,
    sumE2 := fun i k => s.sumE2 i k + (r.e.getD i []).getD k 0 ^ 2,
    sumAE := fun i k => s.sumAE i k + r.a.getD k 0 * (r.e.getD i []).getD k 0,
    sumBE := fun i k => s.sumBE i k + r.b.getD k 0 * (r.e.getD i []).getD k 0 }

/-- Modelled from the spec: the block layout of a design of m repetitions:
the m rows of A first, then the m rows of B, then for each input i the m
column swapped rows; repetition r gathers row r of each group. -/
def designRep (p m : ℕ) (design : List Vec) (r : ℕ) : SobolRep :=
  { a := design.getD r [],
    b := design.getD (m + r) [],
    e := (List.range p).map (fun i => design.getD ((2 + i) * m + r) []) }

/-- Modelled from the spec: the list of repetitions carried by a design
block, in order. -/
def designReps (p : ℕ) (design : List Vec) : List SobolRep :=
  (List.range (design.length / (p + 2))).map
    (designRep p (design.length / (p + 2)) design)

/-- Modelled from the spec: the single repetition design block carrying
only repetition r of a larger design of m repetitions. -/
def repSlice (p m : ℕ) (design : List Vec) (r : ℕ) : List Vec :=
  (designRep p m design r).a :: (designRep p m design r).b :: (designRep p m design r).e

/-- Modelled from the spec: incrementIndices consumes a design block of
(p + 2) * m output rows of width q; a length that is not a multiple of
p + 2 or a row of the wrong width is a shape mismatch failure without any
update, otherwise all m repetitions are absorbed into the running
sums. -/
def SobolIndices.incrementIndices (s : SobolIndices) (design : List Vec) :
    Option SobolIndices :=
  if design.length % (s.inputDimension + 2) = 0
      ∧ ∀ row ∈ design, row.length = s.outputDimension then
    some ((designReps s.inputDimension design).foldl SobolIndices.stepRep s)
  else
    none

/-- Aggregate a per output quantity by summing over the output components. -/
def SobolIndices.agg (s : SobolIndices) (f : ℕ → ℚ) : ℚ :=
  ((List.range s.outputDimension).map f).sum

/-- Sample variance of the A column of output k, from the running sums. -/
def SobolIndices.varA (s : SobolIndices) (k : ℕ) : ℚ :=
  s.sumA2 k / s.iteration - (s.sumA k / s.iteration) ^ 2

/-- Sample variance of the B column of output k, from the running sums. -/
def SobolIndices.varB (s : SobolIndices) (k : ℕ) : ℚ :=
  s.sumB2 k / s.iteration - (s.sumB k / s.iteration) ^ 2

/-- Sample variance of the column swapped sample i on output k. -/
def SobolIndices.varE (s : SobolIndices) (i k : ℕ) : ℚ :=
  s.sumE2 i k / s.iteration - (s.sumE i k / s.iteration) ^ 2

/-- Sample covariance of the B column and the column swapped sample i. -/
def SobolIndices.covBE (s : SobolIndices) (i k : ℕ) : ℚ :=
  s.sumBE i k / s.iteration - (s.sumB k / s.iteration) * (s.sumE i k / s.iteration)

/-- Sample covariance of the A column and the column swapped sample i. -/
def SobolIndices.covAE (s : SobolIndices) (i k : ℕ) : ℚ :=
  s.sumAE i k / s.iteration - (s.sumA k / s.iteration) * (s.sumE i k / s.iteration)

/-- Modelled from the spec: the literature standard first order index ratio
of estimator kind for input i, aggregated over the output components (the
exact per kind numerator and denominator are not pinned down by the
excerpt; the standard Saltelli, Jansen, Martinez and Mauntz Kucherenko
formulas named by section 4.3 are used). -/
noncomputable def SobolIndices.firstOrderIndex (s : SobolIndices) (i : ℕ) : ℝ :=
  match s.kind with
  | SobolEstimator.saltelli =>
      ((s.agg fun k =>
          s.sumBE i k / s.iteration - s.sumA k / s.iteration * (s.sumB k / s.iteration)) : ℝ) /
        ((s.agg s.varA : ℚ) : ℝ)
  | SobolEstimator.mauntzKucherenko =>
      ((s.agg fun k => (s.sumBE i k - s.sumAB k) / s.iteration) : ℝ) /
        ((s.agg s.varA : ℚ) : ℝ)
  | SobolEstimator.jansen =>
      1 - ((s.agg fun k =>
          (s.sumB2 k - 2 * s.sumBE i k + s.sumE2 i k) / (2 * s.iteration)) : ℝ) /
        ((s.agg s.varA : ℚ) : ℝ)
  | SobolEstimator.martinez =>
      ((s.agg fun k => s.covBE i k : ℚ) : ℝ) /
        ((List.range s.outputDimension).map
          (fun k => Real.sqrt ((s.varB k : ℚ) : ℝ) * Real.sqrt ((s.varE i k : ℚ) : ℝ))).sum

/-- Modelled from the spec: the literature standard total order index ratio
of estimator kind for input i, aggregated over the output components. -/
noncomputable def SobolIndices.totalOrderIndex (s : SobolIndices) (i : ℕ) : ℝ :=
  match s.kind with
  | SobolEstimator.saltelli =>
      1 - ((s.agg fun k => s.covAE i k : ℚ) : ℝ) / ((s.agg s.varA : ℚ) : ℝ)
  | SobolEstimator.mauntzKucherenko =>
      ((s.agg fun k => (s.sumA2 k - s.sumAE i k) / s.iteration) : ℝ) /
        ((s.agg s.varA : ℚ) : ℝ)
  | SobolEstimator.jansen =>
      ((s.agg fun k =>
          (s.sumA2 k - 2 * s.sumAE i k + s.sumE2 i k) / (2 * s.iteration)) : ℝ) /
        ((s.agg s.varA : ℚ) : ℝ)
  | SobolEstimator.martinez =>
      1 - ((s.agg fun k => s.covAE i k : ℚ) : ℝ) /
        ((List.range s.outputDimension).map
          (fun k => Real.sqrt ((s.varA k : ℚ) : ℝ) * Real.sqrt ((s.varE i k : ℚ) : ℝ))).sum

/-- Modelled from the spec: getFirstOrderIndices returns the vector of
length p of first order indices computed from the current running sums. -/
noncomputable def SobolIndices.getFirstOrderIndices (s : SobolIndices) : List ℝ :=
  (List.range s.inputDimension).map s.firstOrderIndex

/-- Modelled from the spec: getTotalOrderIndices returns the vector of
length p of total order indices computed from the current running sums. -/
noncomputable def SobolIndices.getTotalOrderIndices (s : SobolIndices) : List ℝ :=
  (List.range s.inputDimension).map s.totalOrderIndex

/-- Closed form batch sufficient statistics of a whole design block: the
same sums computed directly in one pass over the repetitions of the design
(the batch formula estimate of the specification applies the estimator
formulas to these sums). -/
def batchState (kind : SobolEstimator) (p q : ℕ) (design : List Vec) : SobolIndices :=
  { kind := kind, inputDimension := p, outputDimension := q,
    iteration := (designReps p design).length,
    sumA := fun k => ((designReps p design).map (fun r => r.a.getD k 0)).sum,
    sumB := fun k => ((designReps p design).map (fun r => r.b.getD k 0)).sum,
    sumA2 := fun k => ((designReps p design).map (fun r => r.a.getD k 0 ^ 2)).sum,
    sumB2 := fun k => ((designReps p design).map (fun r => r.b.getD k 0 ^ 2)).sum,
    sumAB := fun k =>
      ((designReps p design).map (fun r => r.a.getD k 0 * r.b.getD k 0)).sum,
    sumE := fun i k => ((designReps p design).map (fun r => (r.e.getD i []).getD k 0)).sum,
    sumE2 := fun i k =>
      ((designReps p design).map (fun r => (r.e.getD i []).getD k 0 ^ 2)).sum,
    sumAE := fun i k =>
      ((designReps p design).map (fun r => r.a.getD k 0 * (r.e.getD i []).getD k 0)).sum,
    sumBE := fun i k =>
      ((designReps p design).map (fun r => r.b.getD k 0 * (r.e.getD i []).getD k 0)).sum }

/-- Error outcomes of the coupling tools helpers. -/
inductive CouplingError where
  | assertionError
  | eofError
  | fileNotFound
deriving Repr, DecidableEq

/-- A file system maps file names to contents, a content being the list of
the lines of the file. -/
def FileSys : Type := String → Option (List String)

/-- Write a file: update the file system at one name. -/
def writeFile (fs : FileSys) (name : String) (content : List String) : FileSys :=
  fun n => if n = name then some content else fs n

/-- Remove a file from the file system. -/
def removeFile (fs : FileSys) (name : String) : FileSys :=
  fun n => if n = name then none else fs n

/-- Name of the temporary output file used by the in place mode of replace
(source line 121). -/
def tempOutName (infile : String) : String := infile ++ ".temporary_outfile"

/-- One token replacement loop on one line, embedding the while loop of
coupling_tools.replace (source lines 135 to 138): search, replace every
occurrence of the matched text by the value, search again. The regex
search is abstracted as an oracle giving the matched text; the fuel bounds
the iterations of the source while loop, which is not structurally
bounded. Returns the processed line and whether the token was found at
least once. -/
def replaceTokenLoop (search : String → String → Option String)
    (token repl : String) : ℕ → String → Bool → String × Bool
  | 0, line, found => (line, found)
  | Nat.succ fuel, line, found =>
      match search token line with
      | none => (line, found)
      | some matched =>
          replaceTokenLoop search token repl fuel (line.replace matched repl) true

/-- Process one line against every token in order (source lines 132 to
139), returning the processed line and the per token found flags for this
line. -/
def processLine (search : String → String → Option String) (fuel : ℕ)
    (tvs : List (String × String)) (line : String) : String × List Bool :=
  tvs.foldl
    (fun acc tv =>
      let r := replaceTokenLoop search tv.1 tv.2 fuel acc.1 false
      (r.1, acc.2 ++ [r.2]))
    (line, [])

/-- Process every line of the input file (source lines 129 to 140),
returning the parsed output lines and the accumulated found flags. -/
def processLines (search : String → String → Option String) (fuel : ℕ)
    (tvs : List (String × String)) (lines : List String) : List String × List Bool :=
  lines.foldl
    (fun acc line =>
      let r := processLine search fuel tvs line
      (acc.1 ++ [r.1], List.zipWith or acc.2 r.2))
    ([], List.replicate tvs.length false)

/-- In place mode test of replace (source line 119): the output file is
None or equal to the input file. -/
def inplaceMode (infile : String) (outfile : Option String) : Bool :=
  outfile.isNone || outfile == some infile

/-- The file actually opened for writing by replace: the temporary file in
in place mode (source lines 118 to 121), else the requested output file. -/
def replaceOut (infile : String) (outfile : Option String) : String :=
  if inplaceMode infile outfile then tempOutName infile else outfile.getD ""

/-- Embedding of coupling_tools.replace (source lines 60 to 148). Values
arrive already formatted (the default format of the source renders each
value with str), the regex search is the oracle of replaceTokenLoop, the
file system is explicit, and the Python exception becomes an error value
returned next to the file system state reached when the exception is
raised. In place mode writes the parsed lines to the temporary file and
only after every token has been verified found removes the input file and
moves the temporary onto it. -/
def replace (search : String → String → Option String) (fuel : ℕ) (fs : FileSys)
    (infile : String) (outfile : Option String) (tokens values : List String) :
    FileSys × Option CouplingError :=
  if tokens.length ≠ values.length then
    (fs, some CouplingError.assertionError)
  else
    match fs infile with
    | none => (fs, some CouplingError.fileNotFound)
    | some lines =>
        if (processLines search fuel (tokens.zip values) lines).2.all (fun b => b) then
          if inplaceMode infile outfile then
            (writeFile
              (removeFile
                (removeFile
                  (writeFile fs (replaceOut infile outfile)
                    (processLines search fuel (tokens.zip values) lines).1)
                  infile)
                (replaceOut infile outfile))
              infile
              (processLines search fuel (tokens.zip values) lines).1,
             none)
          else
            (writeFile fs (replaceOut infile outfile)
              (processLines search fuel (tokens.zip values) lines).1, none)
        else
          (writeFile fs (replaceOut infile outfile)
            (processLines search fuel (tokens.zip values) lines).1,
           some CouplingError.eofError)

/-- Embedding of coupling_tools.get_regex (source lines 268 to 337). The
pipeline of OT shortcut preprocessing, regex compilation, per line search,
group extraction and float conversion is abstracted as an oracle from
pattern and line to the optional parsed value. One scanning step folds a
line over every pattern position. -/
def regexScan (matchLine : String → String → Option ℚ) (patterns : List String)
    (res : List (Option ℚ)) (lines : List String) : List (Option ℚ) :=
  lines.foldl
    (fun res line =>
      List.zipWith (fun p r => (matchLine p line).elim r some) patterns res)
    res

/-- The stored per pattern results of get_regex after scanning every line:
positions start at None and every matching line overwrites the stored
value of its pattern (source lines 311 and 323 to 331). -/
def regexResults (matchLine : String → String → Option ℚ) (patterns : List String)
    (lines : List String) : List (Option ℚ) :=
  regexScan matchLine patterns (List.replicate patterns.length (none : Option ℚ)) lines

/-- Embedding of coupling_tools.get_regex (source lines 268 to 337): an
empty pattern list is an assertion error; a pattern with no stored result
after the scan raises EOFError, else the stored values are returned. -/
def get_regex (matchLine : String → String → Option ℚ) (lines : List String)
    (patterns : List String) : Except CouplingError (List ℚ) :=
  if patterns.length = 0 then
    Except.error CouplingError.assertionError
  else
    if (regexResults matchLine patterns lines).all Option.isSome then
      Except.ok ((regexResults matchLine patterns lines).map (fun r => r.getD 0))
    else
      Except.error CouplingError.eofError

/-- Concrete input file name used by the worked examples below. -/
def fixtureIn : String := "in.dat"

/-- Concrete file content used by the worked examples below. -/
def fixtureLines : List String := [ "ab" ]

/-- Concrete one file file system used by the worked examples below. -/
def fixtureFS : FileSys := fun n => if n = fixtureIn then some fixtureLines else none

/-- Concrete token list used by the worked examples below. -/
def fixtureTokens : List String := [ "@T" ]

/-- Concrete value list used by the worked examples below. -/
def fixtureValues : List String := [ "1" ]

/-- A search oracle that never finds any token. -/
def searchNone : String → String → Option String := fun _ _ => none

/-- A match oracle for get_regex that never matches any line. -/
def matchNone : String → String → Option ℚ := fun _ _ => none

/-- Concrete call sequence of the worked scenario of the spec: fifty single
point calls followed by one batch call of fifty points, in dimension 5. -/
def fixtureCalls : List (List Vec) :=
  List.replicate 50 [List.replicate 5 (0 : ℚ)]
    ++ [List.replicate 50 (List.replicate 5 (0 : ℚ))]

/-- Component access of a pointwise zipWith, via getD with default 0. -/
lemma getD_zipWith (f : ℚ → ℚ → ℚ) :
    ∀ (l1 l2 : List ℚ) (j : ℕ), j < l1.length → j < l2.length →
      (List.zipWith f l1 l2).getD j 0 = f (l1.getD j 0) (l2.getD j 0)
  | _ :: _, _ :: _, 0, _, _ => rfl
  | a :: l1, b :: l2, j + 1, h1, h2 => by
      simpa using getD_zipWith f l1 l2 j (by simpa using h1) (by simpa using h2)
  | [], _, j, h1, _ => absurd h1 (by simp)
  | _ :: _, [], j, _, h2 => absurd h2 (by simp)

/-- Component access of a pointwise zipWith3, via getD with default 0. -/
lemma getD_zipWith3 (f : ℚ → ℚ → ℚ → ℚ) :
    ∀ (l1 l2 l3 : List ℚ) (j : ℕ), j < l1.length → j < l2.length → j < l3.length →
      (List.zipWith3 f l1 l2 l3).getD j 0 = f (l1.getD j 0) (l2.getD j 0) (l3.getD j 0)
  | _ :: _, _ :: _, _ :: _, 0, _, _, _ => rfl
  | a :: l1, b :: l2, c :: l3, j + 1, h1, h2, h3 => by
      simpa [List.zipWith3] using
        getD_zipWith3 f l1 l2 l3 j (by simpa using h1) (by simpa using h2) (by simpa using h3)
  | [], _, _, j, h1, _, _ => absurd h1 (by simp)
  | _ :: _, [], _, j, _, h2, _ => absurd h2 (by simp)
  | _ :: _, _ :: _, [], j, _, _, h3 => absurd h3 (by simp)

/-- Component access of a replicate of zeros is zero. -/
lemma getD_replicate (d j : ℕ) : (List.replicate d (0 : ℚ)).getD j 0 = 0 := by
  induction d generalizing j with
  | zero => simp
  | succ d ih =>
      cases j with
      | zero => simp [List.replicate]
      | succ j => simp [List.replicate, ih j]

/-- Shifting the center of a sum of squared deviations. -/
lemma sum_sq_shift (l : List ℚ) (a b : ℚ) :
    (l.map (fun v => (v - b) ^ 2)).sum =
      (l.map (fun v => (v - a) ^ 2)).sum + 2 * (a - b) * (l.sum - l.length * a)
        + l.length * (a - b) ^ 2 := by
  induction l with
  | nil => simp
  | cons x l ih =>
      simp only [List.map_cons, List.sum_cons, List.length_cons, ih]
      push_cast
      ring

/-- Running sum property of one mean update step. -/
lemma meanUpdate_sum (n : ℕ) (mu x : ℚ) (hist : List ℚ)
    (h : mu * hist.length = hist.sum) (hn : hist.length = n) :
    meanUpdate n mu x * (n + 1) = hist.sum + x := by
  subst hn
  have hne : ((hist.length : ℚ) + 1) ≠ 0 := by positivity
  rw [meanUpdate, ← h]
  field_simp
  ring

/-- One step of the Welford M2 recurrence keeps the sum of squared
deviations from the updated running mean. -/
lemma welford_step (hist : List ℚ) (mu m2 x : ℚ)
    (hmu : mu * hist.length = hist.sum)
    (hm2 : m2 = (hist.map (fun v => (v - mu) ^ 2)).sum) :
    m2Update hist.length mu m2 x =
      ((hist ++ [x]).map (fun v => (v - meanUpdate hist.length mu x) ^ 2)).sum := by
  have hne : ((hist.length : ℚ) + 1) ≠ 0 := by positivity
  rw [List.map_append, List.sum_append,
    sum_sq_shift hist mu (meanUpdate hist.length mu x), ← hmu, m2Update, hm2]
  simp only [List.map_cons, List.map_nil, List.sum_cons, List.sum_nil]
  rw [meanUpdate]
  field_simp
  ring

/-- A fresh mean accumulator represents the empty history. -/
lemma IterativeMean.new_represents (d : ℕ) : (IterativeMean.new d).represents [] := by
  refine ⟨by simp [IterativeMean.new], by simp [IterativeMean.new], ?_⟩
  intro j hj
  simp [col]

/-- A successful single point increment extends the represented history. -/
lemma IterativeMean.increment_represents {s : IterativeMean} {hist : List Vec} {x : Vec}
    (hs : s.represents hist) (hx : x.length = s.dimension) :
    ∃ t, s.increment x = some t ∧ t.dimension = s.dimension ∧ t.represents (hist ++ [x]) := by
  obtain ⟨hlen, hiter, hcomp⟩ := hs
  rw [IterativeMean.increment, if_pos hx]
  refine ⟨_, rfl, rfl, ?_, ?_, ?_⟩
  · simp [hlen, hx]
  · simpa using hiter
  · intro j hj
    have hj0 : j < s.dimension := hj
    have hj1 : j < s.mu.length := by omega
    have hj2 : j < x.length := by omega
    have hcl : col j (hist ++ [x]) = col j hist ++ [x.getD j 0] := by simp [col]
    have hstep := meanUpdate_sum s.iteration (s.mu.getD j 0) (x.getD j 0) (col j hist)
      (by simpa [col] using hcomp j hj0) (by simp [col, hiter])
    rw [getD_zipWith _ _ _ _ hj1 hj2, hcl, List.sum_append, List.length_append]
    simp only [List.sum_cons, List.sum_nil, List.length_cons, List.length_nil, add_zero,
      Nat.zero_add]
    rw [← hstep, hiter]
    push_cast
    ring

/-- Absorbing a list of well shaped observations always succeeds and extends
the represented history accordingly. -/
lemma IterativeMean.incrementSample_represents {s : IterativeMean} {hist : List Vec}
    (xs : List Vec) (hs : s.represents hist) (hxs : ∀ x ∈ xs, x.length = s.dimension) :
    ∃ t, s.incrementSample xs = some t ∧ t.dimension = s.dimension ∧
      t.represents (hist ++ xs) := by
  induction xs generalizing s hist with
  | nil => exact ⟨s, rfl, rfl, by simpa using hs⟩
  | cons x xs ih =>
      obtain ⟨t, ht, htd, htr⟩ := IterativeMean.increment_represents hs
        (hxs x (by simp))
      obtain ⟨u, hu, hud, hur⟩ := ih htr (fun y hy => htd ▸ hxs y (by simp [hy]))
      refine ⟨u, ?_, by rw [hud, htd], by simpa using hur⟩
      simp only [IterativeMean.incrementSample, List.foldlM_cons, ht, Option.bind_eq_bind,
        Option.some_bind]
      exact hu

/-- Length of a pointwise zipWith3. -/
lemma length_zipWith3 (f : ℚ → ℚ → ℚ → ℚ) :
    ∀ (l1 l2 l3 : List ℚ),
      (List.zipWith3 f l1 l2 l3).length = min l1.length (min l2.length l3.length)
  | [], _, _ => by simp [List.zipWith3]
  | _ :: _, [], _ => by simp [List.zipWith3]
  | _ :: _, _ :: _, [] => by simp [List.zipWith3]
  | a :: l1, b :: l2, c :: l3 => by
      simp [List.zipWith3, length_zipWith3 f l1 l2 l3]
      omega

/-- A fresh variance accumulator represents the empty history. -/
lemma IterativeVariance.new_representsV (d : ℕ) : (IterativeVariance.new d).represents [] := by
  refine ⟨by simp [IterativeVariance.new], by simp [IterativeVariance.new],
    by simp [IterativeVariance.new], ?_⟩
  intro j hj
  simp [IterativeVariance.new, col, getD_replicate]

/-- A successful single point increment of the variance accumulator extends
the represented history. -/
lemma IterativeVariance.increment_representsV {s : IterativeVariance} {hist : List Vec}
    {x : Vec} (hs : s.represents hist) (hx : x.length = s.dimension) :
    ∃ t, s.increment x = some t ∧ t.dimension = s.dimension ∧
      t.represents (hist ++ [x]) := by
  obtain ⟨hlen, hlen2, hiter, hcomp⟩ := hs
  rw [IterativeVariance.increment, if_pos hx]
  refine ⟨_, rfl, rfl, ?_, ?_, ?_, ?_⟩
  · simp [hlen, hx]
  · simp [length_zipWith3, hlen, hlen2, hx]
  · simpa using hiter
  · intro j hj
    have hj0 : j < s.dimension := hj
    have hj1 : j < s.mu.length := by omega
    have hj2 : j < x.length := by omega
    have hj3 : j < s.m2.length := by omega
    have hcl : col j (hist ++ [x]) = col j hist ++ [x.getD j 0] := by simp [col]
    have hlc : (col j hist).length = s.iteration := by simp [col, hiter]
    have hmu : s.mu.getD j 0 * ((col j hist).length : ℚ) = (col j hist).sum := by
      rw [hlc, hiter]
      exact (hcomp j hj0).1
    constructor
    · have hstep := meanUpdate_sum s.iteration (s.mu.getD j 0) (x.getD j 0) (col j hist)
        hmu hlc
      rw [getD_zipWith _ _ _ _ hj1 hj2, hcl, List.sum_append, List.length_append]
      simp only [List.sum_cons, List.sum_nil, List.length_cons, List.length_nil, add_zero,
        Nat.zero_add]
      rw [← hstep, hiter]
      push_cast
      ring
    · have hstep := welford_step (col j hist) (s.mu.getD j 0) (s.m2.getD j 0) (x.getD j 0)
        hmu (hcomp j hj0).2
      rw [getD_zipWith3 _ _ _ _ _ hj1 hj3 hj2, getD_zipWith _ _ _ _ hj1 hj2, hcl, ← hlc]
      exact hstep

/-- Absorbing a list of well shaped observations in the variance accumulator
always succeeds and extends the represented history accordingly. -/
lemma IterativeVariance.incrementSample_representsV {s : IterativeVariance} {hist : List Vec}
    (xs : List Vec) (hs : s.represents hist) (hxs : ∀ x ∈ xs, x.length = s.dimension) :
    ∃ t, s.incrementSample xs = some t ∧ t.dimension = s.dimension ∧
      t.represents (hist ++ xs) := by
  induction xs generalizing s hist with
  | nil => exact ⟨s, rfl, rfl, by simpa using hs⟩
  | cons x xs ih =>
      obtain ⟨t, ht, htd, htr⟩ := IterativeVariance.increment_representsV hs
        (hxs x (by simp))
      obtain ⟨u, hu, hud, hur⟩ := ih htr (fun y hy => htd ▸ hxs y (by simp [hy]))
      refine ⟨u, ?_, by rw [hud, htd], by simpa using hur⟩
      simp only [IterativeVariance.incrementSample, List.foldlM_cons, ht,
        Option.bind_eq_bind, Option.some_bind]
      exact hu

/-- Splitting the observations into calls is invisible to the mean
accumulator: any sequence of calls acts like one batch over the
concatenation. -/
lemma IterativeMean.incrementCalls_eq_flatten (s : IterativeMean)
    (calls : List (List Vec)) :
    s.incrementCalls calls = s.incrementSample calls.flatten := by
  induction calls generalizing s with
  | nil => rfl
  | cons b bs ih =>
      simp only [IterativeMean.incrementCalls, List.foldlM_cons, List.flatten_cons,
        IterativeMean.incrementSample, List.foldlM_append]
      cases hb : List.foldlM IterativeMean.increment s b with
      | none => simp
      | some t =>
          simpa [IterativeMean.incrementCalls, IterativeMean.incrementSample] using ih t

/-- Splitting the observations into calls is invisible to the variance
accumulator as well. -/
lemma IterativeVariance.incrementCalls_eq_flattenV (s : IterativeVariance)
    (calls : List (List Vec)) :
    s.incrementCalls calls = s.incrementSample calls.flatten := by
  induction calls generalizing s with
  | nil => rfl
  | cons b bs ih =>
      simp only [IterativeVariance.incrementCalls, List.foldlM_cons, List.flatten_cons,
        IterativeVariance.incrementSample, List.foldlM_append]
      cases hb : List.foldlM IterativeVariance.increment s b with
      | none => simp
      | some t =>
          simpa [IterativeVariance.incrementCalls, IterativeVariance.incrementSample] using ih t

/-- Anatomy of a successful single point increment of the mean
accumulator. -/
lemma IterativeMean.increment_some {s : IterativeMean} {x : Vec} {t : IterativeMean}
    (h : s.increment x = some t) :
    x.length = s.dimension ∧ t.dimension = s.dimension ∧ t.iteration = s.iteration + 1 ∧
      t.mu = List.zipWith (meanUpdate s.iteration) s.mu x := by
  by_cases hx : x.length = s.dimension
  · rw [IterativeMean.increment, if_pos hx] at h
    cases h
    exact ⟨hx, rfl, rfl, rfl⟩
  · rw [IterativeMean.increment, if_neg hx] at h
    cases h

/-- Anatomy of a successful single point increment of the variance
accumulator. -/
lemma IterativeVariance.increment_someV {s : IterativeVariance} {x : Vec}
    {t : IterativeVariance} (h : s.increment x = some t) :
    x.length = s.dimension ∧ t.dimension = s.dimension ∧ t.iteration = s.iteration + 1 ∧
      t.mu = List.zipWith (meanUpdate s.iteration) s.mu x := by
  by_cases hx : x.length = s.dimension
  · rw [IterativeVariance.increment, if_pos hx] at h
    cases h
    exact ⟨hx, rfl, rfl, rfl⟩
  · rw [IterativeVariance.increment, if_neg hx] at h
    cases h

/-- A successful batch increment of the mean accumulator adds exactly the
number of rows of the batch to the iteration count. -/
lemma IterativeMean.incrementSample_some {s t : IterativeMean} (b : List Vec)
    (h : s.incrementSample b = some t) :
    t.dimension = s.dimension ∧ t.iteration = s.iteration + b.length := by
  induction b generalizing s with
  | nil =>
      cases h
      simp
  | cons x xs ih =>
      rw [IterativeMean.incrementSample, List.foldlM_cons] at h
      cases hx : s.increment x with
      | none => rw [hx] at h; simp at h
      | some u =>
          rw [hx] at h
          simp only [Option.bind_eq_bind, Option.some_bind] at h
          obtain ⟨hd, hi⟩ := ih h
          obtain ⟨_, hud, hui, _⟩ := IterativeMean.increment_some hx
          refine ⟨by rw [hd, hud], ?_⟩
          rw [hi, hui, List.length_cons]
          omega

/-- A successful batch increment of the variance accumulator adds exactly
the number of rows of the batch to the iteration count. -/
lemma IterativeVariance.incrementSample_someV {s t : IterativeVariance} (b : List Vec)
    (h : s.incrementSample b = some t) :
    t.dimension = s.dimension ∧ t.iteration = s.iteration + b.length := by
  induction b generalizing s with
  | nil =>
      cases h
      simp
  | cons x xs ih =>
      rw [IterativeVariance.incrementSample, List.foldlM_cons] at h
      cases hx : s.increment x with
      | none => rw [hx] at h; simp at h
      | some u =>
          rw [hx] at h
          simp only [Option.bind_eq_bind, Option.some_bind] at h
          obtain ⟨hd, hi⟩ := ih h
          obtain ⟨_, hud, hui, _⟩ := IterativeVariance.increment_someV hx
          refine ⟨by rw [hd, hud], ?_⟩
          rw [hi, hui, List.length_cons]
          omega

/-- A batch holding a row of the wrong width makes the whole mean batch
increment fail, whatever the position of the bad row. -/
lemma IterativeMean.incrementSample_mismatch {s : IterativeMean} {b : List Vec}
    (hb : ∃ x ∈ b, x.length ≠ s.dimension) : s.incrementSample b = none := by
  induction b generalizing s with
  | nil => simp at hb
  | cons x xs ih =>
      rw [IterativeMean.incrementSample, List.foldlM_cons]
      by_cases hx : x.length = s.dimension
      · rw [IterativeMean.increment, if_pos hx]
        simp only [Option.bind_eq_bind, Option.some_bind]
        apply ih
        obtain ⟨y, hy, hyl⟩ := hb
        rcases List.mem_cons.mp hy with hy0 | hy1
        · exact absurd (hy0 ▸ hyl) (by simpa using hx)
        · exact ⟨y, hy1, hyl⟩
      · rw [IterativeMean.increment, if_neg hx]
        simp

/-- A batch holding a row of the wrong width makes the whole variance batch
increment fail, whatever the position of the bad row. -/
lemma IterativeVariance.incrementSample_mismatchV {s : IterativeVariance} {b : List Vec}
    (hb : ∃ x ∈ b, x.length ≠ s.dimension) : s.incrementSample b = none := by
  induction b generalizing s with
  | nil => simp at hb
  | cons x xs ih =>
      rw [IterativeVariance.incrementSample, List.foldlM_cons]
      by_cases hx : x.length = s.dimension
      · rw [IterativeVariance.increment, if_pos hx]
        simp only [Option.bind_eq_bind, Option.some_bind]
        apply ih
        obtain ⟨y, hy, hyl⟩ := hb
        rcases List.mem_cons.mp hy with hy0 | hy1
        · exact absurd (hy0 ▸ hyl) (by simpa using hx)
        · exact ⟨y, hy1, hyl⟩
      · rw [IterativeVariance.increment, if_neg hx]
        simp

/-- The mean accumulator and the variance accumulator evolve their running
means identically when fed the same observations from matching states. -/
lemma parallel_mu (xs : List Vec) :
    ∀ (a : IterativeMean) (b : IterativeVariance), a.mu = b.mu →
      a.iteration = b.iteration → a.dimension = b.dimension →
      ∀ {ta : IterativeMean} {tb : IterativeVariance},
        a.incrementSample xs = some ta → b.incrementSample xs = some tb →
        ta.mu = tb.mu := by
  induction xs with
  | nil =>
      intro a b hmu hit hdim ta tb ha hb
      cases ha
      cases hb
      exact hmu
  | cons x xs ih =>
      intro a b hmu hit hdim ta tb ha hb
      rw [IterativeMean.incrementSample, List.foldlM_cons] at ha
      rw [IterativeVariance.incrementSample, List.foldlM_cons] at hb
      by_cases hx : x.length = a.dimension
      · rw [IterativeMean.increment, if_pos hx] at ha
        rw [IterativeVariance.increment, if_pos (hdim ▸ hx)] at hb
        simp only [Option.bind_eq_bind, Option.some_bind] at ha hb
        exact ih _ _ (by rw [hmu, hit]) (by simp [hit]) (by simp [hdim]) ha hb
      · rw [IterativeMean.increment, if_neg hx] at ha
        simp at ha

/-- The sample variance of a list of at most one element is zero. -/
lemma sampleVariance_short (l : List ℚ) (h : l.length ≤ 1) : sampleVariance l = 0 := by
  match l with
  | [] => simp [sampleVariance]
  | [x] => simp [sampleVariance, sampleMean]
  | x :: y :: l => simp at h

/-- The variance getter on a represented state returns exactly the closed
form unbiased sample variance of each column. -/
lemma getVariance_closed_form {s : IterativeVariance} {hist : List Vec}
    (hs : s.represents hist) {j : ℕ} (hj : j < s.dimension) :
    s.getVariance.getD j 0 = sampleVariance (col j hist) := by
  obtain ⟨hlen, hlen2, hiter, hcomp⟩ := hs
  have hlc : (col j hist).length = hist.length := by simp [col]
  by_cases h1 : 1 < s.iteration
  · have hj3 : j < s.m2.length := by omega
    have hne : ((hist.length : ℚ)) ≠ 0 := by
      have : 1 < hist.length := by omega
      positivity
    have hmean : s.mu.getD j 0 = sampleMean (col j hist) := by
      rw [sampleMean, hlc, eq_div_iff hne]
      exact (hcomp j hj).1
    rw [IterativeVariance.getVariance, if_pos h1]
    have hmap : (s.m2.map (fun v => v / ((s.iteration : ℚ) - 1))).getD j 0 =
        s.m2.getD j 0 / ((s.iteration : ℚ) - 1) := by
      have h0 : (0 : ℚ) = 0 / ((s.iteration : ℚ) - 1) := by simp
      nth_rewrite 1 [h0]
      rw [List.getD_map]
    rw [hmap, (hcomp j hj).2, hmean, sampleVariance, hlc, hiter]
  · rw [IterativeVariance.getVariance, if_neg h1, getD_replicate,
      sampleVariance_short]
    omega

/-- Membership of an in range getD read. -/
lemma getD_mem {α : Type _} (l : List α) (n : ℕ) (d : α) (h : n < l.length) :
    l.getD n d ∈ l := by
  rw [List.getD_eq_getElem l d h]
  exact List.getElem_mem h

/-- Read through a map over a range, with any default. -/
lemma getD_map_range {α : Type _} (f : ℕ → α) (p i : ℕ) (d : α) (h : i < p) :
    ((List.range p).map f).getD i d = f i := by
  have hl : i < ((List.range p).map f).length := by simpa using h
  rw [List.getD_eq_getElem _ d hl, List.getElem_map, List.getElem_range]

/-- Folding stepRep accumulates the running sums of every repetition. -/
lemma foldl_stepRep (reps : List SobolRep) :
    ∀ s : SobolIndices,
      reps.foldl SobolIndices.stepRep s =
        { kind := s.kind, inputDimension := s.inputDimension,
          outputDimension := s.outputDimension,
          iteration := s.iteration + reps.length,
          sumA := fun k => s.sumA k + (reps.map (fun r => r.a.getD k 0)).sum,
          sumB := fun k => s.sumB k + (reps.map (fun r => r.b.getD k 0)).sum,
          sumA2 := fun k => s.sumA2 k + (reps.map (fun r => r.a.getD k 0 ^ 2)).sum,
          sumB2 := fun k => s.sumB2 k + (reps.map (fun r => r.b.getD k 0 ^ 2)).sum,
          sumAB := fun k =>
            s.sumAB k + (reps.map (fun r => r.a.getD k 0 * r.b.getD k 0)).sum,
          sumE := fun i k =>
            s.sumE i k + (reps.map (fun r => (r.e.getD i []).getD k 0)).sum,
          sumE2 := fun i k =>
            s.sumE2 i k + (reps.map (fun r => (r.e.getD i []).getD k 0 ^ 2)).sum,
          sumAE := fun i k =>
            s.sumAE i k + (reps.map (fun r => r.a.getD k 0 * (r.e.getD i []).getD k 0)).sum,
          sumBE := fun i k =>
            s.sumBE i k
              + (reps.map (fun r => r.b.getD k 0 * (r.e.getD i []).getD k 0)).sum } := by
  induction reps with
  | nil =>
      intro s
      cases s
      simp
  | cons r rest ih =>
      intro s
      rw [List.foldl_cons, ih]
      simp only [SobolIndices.stepRep, SobolIndices.mk.injEq, List.map_cons, List.sum_cons,
        List.length_cons]
      refine ⟨trivial, trivial, trivial, by omega, ?_, ?_, ?_, ?_, ?_, ?_, ?_, ?_, ?_⟩
      · funext k; ring
      · funext k; ring
      · funext k; ring
      · funext k; ring
      · funext k; ring
      · funext i k; ring
      · funext i k; ring
      · funext i k; ring
      · funext i k; ring

/-- Streaming accumulation from a fresh accumulator computes exactly the
closed form batch sums. -/
lemma foldl_stepRep_new (kind : SobolEstimator) (p q : ℕ) (design : List Vec) :
    (designReps p design).foldl SobolIndices.stepRep (SobolIndices.new kind p q) =
      batchState kind p q design := by
  rw [foldl_stepRep]
  simp only [SobolIndices.new, batchState, SobolIndices.mk.injEq]
  refine ⟨trivial, trivial, trivial, by omega, ?_, ?_, ?_, ?_, ?_, ?_, ?_, ?_, ?_⟩
  · funext k; rw [zero_add]
  · funext k; rw [zero_add]
  · funext k; rw [zero_add]
  · funext k; rw [zero_add]
  · funext k; rw [zero_add]
  · funext i k; rw [zero_add]
  · funext i k; rw [zero_add]
  · funext i k; rw [zero_add]
  · funext i k; rw [zero_add]

/-- Parsing a design of m repetitions yields one extracted repetition per
element of range m. -/
lemma designReps_eq (p m : ℕ) (design : List Vec) (hlen : design.length = (p + 2) * m) :
    designReps p design = (List.range m).map (designRep p m design) := by
  rw [designReps, hlen, Nat.mul_div_cancel_left m (by omega : 0 < p + 2)]

/-- A single repetition slice parses into exactly that repetition. -/
lemma repSlice_parse (p m : ℕ) (design : List Vec) (r : ℕ) :
    designRep p 1 (repSlice p m design r) 0 = designRep p m design r := by
  unfold designRep
  simp only [SobolRep.mk.injEq]
  refine ⟨rfl, rfl, List.map_congr_left ?_⟩
  intro i hi
  have h2 : (2 + i) * 1 + 0 = i + 1 + 1 := by ring
  rw [h2, repSlice, List.getD_cons_succ, List.getD_cons_succ]
  exact getD_map_range _ p i [] (List.mem_range.mp hi)

/-- A single repetition call on a well shaped design absorbs exactly that
repetition into the running sums. -/
lemma incrementIndices_repSlice {s : SobolIndices} (p q m : ℕ) (design : List Vec)
    (hp : s.inputDimension = p) (hq : s.outputDimension = q) (r : ℕ) (hr : r < m)
    (hlen : design.length = (p + 2) * m) (hrows : ∀ row ∈ design, row.length = q) :
    s.incrementIndices (repSlice p m design r) =
      some (s.stepRep (designRep p m design r)) := by
  have hmle : m ≤ (p + 2) * m := Nat.le_mul_of_pos_left m (by omega)
  have h2m : 2 * m ≤ (p + 2) * m := Nat.mul_le_mul_right m (by omega)
  have hsl : (repSlice p m design r).length = p + 2 := by simp [repSlice, designRep]
  have hrow : ∀ row ∈ repSlice p m design r, row.length = q := by
    intro row hrowmem
    rw [repSlice] at hrowmem
    rcases List.mem_cons.mp hrowmem with h | h
    · subst h
      exact hrows _ (getD_mem design r [] (by omega))
    rcases List.mem_cons.mp h with h | h
    · subst h
      exact hrows _ (getD_mem design (m + r) [] (by omega))
    · rw [designRep] at h
      obtain ⟨i, hi, hieq⟩ := List.mem_map.mp h
      have hip : i < p := List.mem_range.mp hi
      have h3m : (3 + i) * m ≤ (p + 2) * m := Nat.mul_le_mul_right m (by omega)
      have hidx : (2 + i) * m + r < design.length := by
        rw [hlen]
        have : (2 + i) * m + m = (3 + i) * m := by ring
        omega
      exact hieq ▸ hrows _ (getD_mem design ((2 + i) * m + r) [] hidx)
  rw [SobolIndices.incrementIndices]
  rw [if_pos ⟨by rw [hsl, hp, Nat.add_comm p 2]; exact Nat.mod_self (2 + p),
    fun row hrowm => (hrow row hrowm).trans hq.symm⟩]
  rw [hp, designReps, hsl, Nat.div_self (by omega : 0 < p + 2)]
  have hr1 : List.range 1 = [0] := rfl
  simp only [hr1, List.map_cons, List.map_nil, List.foldl_cons, List.foldl_nil]
  rw [repSlice_parse]

/-- Successive single repetition calls absorb their repetitions in order. -/
lemma foldlM_repSlice (p q m : ℕ) (design : List Vec)
    (hlen : design.length = (p + 2) * m) (hrows : ∀ row ∈ design, row.length = q)
    (rs : List ℕ) :
    ∀ (s : SobolIndices), s.inputDimension = p → s.outputDimension = q →
      (∀ r ∈ rs, r < m) →
      List.foldlM (fun t r => t.incrementIndices (repSlice p m design r)) s rs =
        some (rs.foldl (fun t r => t.stepRep (designRep p m design r)) s) := by
  induction rs with
  | nil =>
      intro s _ _ _
      rfl
  | cons r rest ih =>
      intro s hp hq hrs
      rw [List.foldlM_cons,
        incrementIndices_repSlice p q m design hp hq r (hrs r (by simp)) hlen hrows]
      simp only [Option.bind_eq_bind, Option.some_bind]
      rw [ih (s.stepRep _) (by simp [SobolIndices.stepRep, hp])
        (by simp [SobolIndices.stepRep, hq]) (fun y hy => hrs y (by simp [hy])),
        List.foldl_cons]

/-- A full design call on a well shaped design absorbs all repetitions. -/
lemma incrementIndices_full {s : SobolIndices} (p q m : ℕ) (design : List Vec)
    (hp : s.inputDimension = p) (hq : s.outputDimension = q)
    (hlen : design.length = (p + 2) * m) (hrows : ∀ row ∈ design, row.length = q) :
    s.incrementIndices design =
      some (((List.range m).map (designRep p m design)).foldl SobolIndices.stepRep s) := by
  rw [SobolIndices.incrementIndices]
  rw [if_pos ⟨by rw [hp, hlen]; exact Nat.mul_mod_right (p + 2) m,
    fun row hrowm => (hrows row hrowm).trans hq.symm⟩]
  rw [hp, designReps_eq p m design hlen]

/-- The temporary output name never collides with the input name. -/
lemma tempOutName_ne (infile : String) : tempOutName infile ≠ infile := by
  intro h
  have hl := congrArg String.length h
  rw [tempOutName, String.length_append] at hl
  have h18 : (".temporary_outfile" : String).length = 18 := rfl
  omega

/-- Component access of a replicate with the replicated element as
default. -/
lemma getD_replicate_self {α : Type _} (a : α) (d j : ℕ) :
    (List.replicate d a).getD j a = a := by
  induction d generalizing j with
  | zero => simp
  | succ d ih =>
      cases j with
      | zero => simp [List.replicate]
      | succ j => simp [List.replicate, ih j]

/-- Component access of a pointwise zipWith of arbitrary types, in range. -/
lemma getD_zipWith_of_lt {α β γ : Type _} (f : α → β → γ) (da : α) (db : β) (dc : γ) :
    ∀ (l1 : List α) (l2 : List β) (j : ℕ), j < l1.length → j < l2.length →
      (List.zipWith f l1 l2).getD j dc = f (l1.getD j da) (l2.getD j db)
  | _ :: _, _ :: _, 0, _, _ => rfl
  | a :: l1, b :: l2, j + 1, h1, h2 => by
      simpa using getD_zipWith_of_lt f da db dc l1 l2 j (by simpa using h1)
        (by simpa using h2)
  | [], _, j, h1, _ => absurd h1 (by simp)
  | _ :: _, [], j, _, h2 => absurd h2 (by simp)

/-- Scanning keeps the result list aligned with the pattern list. -/
lemma regexScan_length (matchLine : String → String → Option ℚ) (patterns : List String)
    (lines : List String) :
    ∀ res : List (Option ℚ), res.length = patterns.length →
      (regexScan matchLine patterns res lines).length = patterns.length := by
  induction lines with
  | nil => intro res hres; exact hres
  | cons line rest ih =>
      intro res hres
      rw [regexScan, List.foldl_cons]
      exact ih _ (by simp [hres])

/-- The stored result of pattern i after the scan is the value of the last
matching line, or the starting value when no line matches. -/
lemma regexScan_getD (matchLine : String → String → Option ℚ) (patterns : List String)
    (lines : List String) :
    ∀ (res : List (Option ℚ)), res.length = patterns.length →
      ∀ i, i < patterns.length →
        (regexScan matchLine patterns res lines).getD i none =
          ((lines.filterMap (matchLine (patterns.getD i ""))).getLast?).elim
            (res.getD i none) some := by
  induction lines with
  | nil =>
      intro res hres i hi
      simp [regexScan]
  | cons line rest ih =>
      intro res hres i hi
      have hstep : (List.zipWith (fun p r => (matchLine p line).elim r some) patterns
          res).getD i none =
          (matchLine (patterns.getD i "") line).elim (res.getD i none) some :=
        getD_zipWith_of_lt _ "" none none patterns res i hi (by omega)
      rw [regexScan, List.foldl_cons]
      have ihs := ih (List.zipWith (fun p r => (matchLine p line).elim r some) patterns res)
        (by simp [hres]) i hi
      rw [regexScan] at ihs
      rw [ihs, hstep, List.filterMap_cons]
      cases hm : matchLine (patterns.getD i "") line with
      | none => simp
      | some v =>
          simp only [Option.elim_some]
          cases hrest : rest.filterMap (matchLine (patterns.getD i "")) with
          | nil => simp
          | cons w l =>
              rw [List.getLast?_cons_cons]
              cases hgl : (w :: l).getLast? with
              | none => exact absurd (List.getLast?_eq_none_iff.mp hgl) (by simp)
              | some z => simp

/-- Division mapped over a list read componentwise, with default 0. -/
lemma getD_map_div (l : List ℚ) (c : ℚ) (j : ℕ) :
    (l.map (fun v => v / c)).getD j 0 = l.getD j 0 / c := by
  have h0 : (0 : ℚ) = 0 / c := by simp
  nth_rewrite 1 [h0]
  rw [List.getD_map]

/-- Square root mapped over a rational list read componentwise, with
default 0. -/
lemma getD_map_sqrt (l : List ℚ) (j : ℕ) :
    (l.map (fun v => Real.sqrt (v : ℝ))).getD j 0 = Real.sqrt ((l.getD j 0 : ℚ) : ℝ) := by
  induction l generalizing j with
  | nil => simp
  | cons x xs ih =>
      cases j with
      | zero => rfl
      | succ j => simpa using ih j

/-- Claim C2: for IterativeMean and IterativeVariance, any splitting of the
same observations into single point or batch increment calls acts exactly
like one batch over the concatenation, succeeds on well shaped data, and
the final mean and variance equal the closed form batch statistics
computed once on all observations (exact rational arithmetic stands in
for the floating point tolerance). -/
theorem claim_C2 (d : ℕ) (calls : List (List Vec))
    (h : ∀ b ∈ calls, ∀ x ∈ b, x.length = d) :
    (IterativeMean.new d).incrementCalls calls =
        (IterativeMean.new d).incrementSample calls.flatten ∧
    (IterativeVariance.new d).incrementCalls calls =
        (IterativeVariance.new d).incrementSample calls.flatten ∧
    ∃ sM sV,
      (IterativeMean.new d).incrementCalls calls = some sM ∧
      (IterativeVariance.new d).incrementCalls calls = some sV ∧
      ∀ j, j < d →
        sM.getMean.getD j 0 * (calls.flatten.length : ℚ) = (col j calls.flatten).sum ∧
        (calls.flatten ≠ [] →
          sM.getMean.getD j 0 = sampleMean (col j calls.flatten)) ∧
        sV.getVariance.getD j 0 = sampleVariance (col j calls.flatten) := by
  have hrows : ∀ x ∈ calls.flatten, x.length = d := by
    intro x hx
    obtain ⟨b, hb, hxb⟩ := List.mem_flatten.mp hx
    exact h b hb x hxb
  refine ⟨IterativeMean.incrementCalls_eq_flatten _ _,
    IterativeVariance.incrementCalls_eq_flattenV _ _, ?_⟩
  obtain ⟨sM, hM, hMd, hMr⟩ := IterativeMean.incrementSample_represents calls.flatten
    (IterativeMean.new_represents d) hrows
  obtain ⟨sV, hV, hVd, hVr⟩ := IterativeVariance.incrementSample_representsV calls.flatten
    (IterativeVariance.new_representsV d) hrows
  refine ⟨sM, sV, ?_, ?_, ?_⟩
  · rw [IterativeMean.incrementCalls_eq_flatten]
    exact hM
  · rw [IterativeVariance.incrementCalls_eq_flattenV]
    exact hV
  · intro j hj
    obtain ⟨hlenM, hiterM, hcompM⟩ := hMr
    have hMd2 : sM.dimension = d := hMd
    have hc := hcompM j (by omega)
    rw [List.nil_append] at hc
    refine ⟨hc, ?_, ?_⟩
    · intro hne
      have hlen0 : calls.flatten.length ≠ 0 := fun h0 => hne (List.length_eq_zero.mp h0)
      have hlq : ((calls.flatten.length : ℚ)) ≠ 0 := by exact_mod_cast hlen0
      have hcl : (col j calls.flatten).length = calls.flatten.length := by
        rw [col, List.length_map]
      rw [sampleMean, hcl, eq_div_iff hlq]
      exact hc
    · have hVd2 : sV.dimension = d := hVd
      exact getVariance_closed_form hVr (by omega)

/-- Claim C3: the variance accumulator updates M2 componentwise by the two
step Welford recurrence (delta times the deviation from the updated mean),
getVariance divides M2 by the fixed unbiased denominator n - 1 when n is
larger than 1 and returns the zero vector otherwise, and
getStandardDeviation is the elementwise square root of the variance. -/
theorem claim_C3 :
    (∀ (s : IterativeVariance) (x : Vec) (t : IterativeVariance),
      s.increment x = some t →
      ∀ j, j < s.mu.length → j < s.m2.length → j < x.length →
        t.getMean.getD j 0 =
          s.getMean.getD j 0
            + (x.getD j 0 - s.getMean.getD j 0) / ((s.getIteration : ℚ) + 1) ∧
        t.m2.getD j 0 =
          s.m2.getD j 0
            + (x.getD j 0 - s.getMean.getD j 0) * (x.getD j 0 - t.getMean.getD j 0)) ∧
    (∀ (s : IterativeVariance), 1 < s.getIteration →
      ∀ j, s.getVariance.getD j 0 = s.m2.getD j 0 / ((s.getIteration : ℚ) - 1)) ∧
    (∀ (s : IterativeVariance), s.getIteration ≤ 1 →
      s.getVariance = List.replicate s.dimension 0) ∧
    (∀ (s : IterativeVariance) (j : ℕ),
      s.getStandardDeviation.getD j 0 = Real.sqrt ((s.getVariance.getD j 0 : ℚ) : ℝ)) := by
  refine ⟨?_, ?_, ?_, ?_⟩
  · intro s x t ht j hj1 hj3 hj2
    obtain ⟨hxl, htd, hti, htmu⟩ := IterativeVariance.increment_someV ht
    have hmu : t.getMean.getD j 0 = meanUpdate s.iteration (s.mu.getD j 0) (x.getD j 0) := by
      show t.mu.getD j 0 = _
      rw [htmu, getD_zipWith _ _ _ _ hj1 hj2]
    constructor
    · rw [hmu]
      rfl
    · have htm2 : t.m2 = List.zipWith3 (m2Update s.iteration) s.mu s.m2 x := by
        rw [IterativeVariance.increment, if_pos hxl] at ht
        cases ht
        rfl
      rw [htm2, getD_zipWith3 _ _ _ _ _ hj1 hj3 hj2, hmu]
      rfl
  · intro s h1 j
    have h1i : 1 < s.iteration := h1
    rw [IterativeVariance.getVariance, if_pos h1i, getD_map_div]
    rfl
  · intro s h1
    have h1i : s.iteration ≤ 1 := h1
    rw [IterativeVariance.getVariance, if_neg (by omega)]
  · intro s j
    rw [IterativeVariance.getStandardDeviation, getD_map_sqrt]

/-- Claim C6: once at least two observations have been absorbed, every
component of getVariance is nonnegative (in the exact rational model no
cancellation can produce a negative variance). -/
theorem claim_C6 (d : ℕ) (xs : List Vec) (hxs : ∀ x ∈ xs, x.length = d)
    (sV : IterativeVariance)
    (h : (IterativeVariance.new d).incrementSample xs = some sV)
    (hn : 2 ≤ sV.getIteration) (j : ℕ) (hj : j < d) :
    0 ≤ sV.getVariance.getD j 0 := by
  obtain ⟨sV2, h2, hd2, hr2⟩ := IterativeVariance.incrementSample_representsV xs
    (IterativeVariance.new_representsV d) hxs
  rw [h] at h2
  cases h2
  have hd3 : sV.dimension = d := hd2
  rw [getVariance_closed_form hr2 (by omega)]
  have hlen : 2 ≤ xs.length := by
    obtain ⟨_, _, hiter, _⟩ := hr2
    have : sV.iteration = xs.length := by simpa using hiter
    have hni : 2 ≤ sV.iteration := hn
    omega
  apply div_nonneg
  · apply List.sum_nonneg
    intro y hy
    obtain ⟨v, _, rfl⟩ := List.mem_map.mp hy
    exact sq_nonneg _
  · have hcl : (col j ([] ++ xs)).length = xs.length := by simp [col]
    rw [hcl]
    have h2q : (2 : ℚ) ≤ (xs.length : ℚ) := by exact_mod_cast hlen
    linarith

/-- Claim C7: a dimension mismatch fails immediately and atomically: the
increment call returns no new state at all (for a batch, also when the bad
row comes after valid rows), so the iteration count, the running mean and
the running sums the caller holds are exactly those from before the failed
call. -/
theorem claim_C7 :
    (∀ (s : IterativeMean) (x : Vec), x.length ≠ s.dimension →
      s.increment x = none) ∧
    (∀ (s : IterativeVariance) (x : Vec), x.length ≠ s.dimension →
      s.increment x = none) ∧
    (∀ (s : IterativeMean) (b : List Vec), (∃ x ∈ b, x.length ≠ s.dimension) →
      s.incrementSample b = none) ∧
    (∀ (s : IterativeVariance) (b : List Vec), (∃ x ∈ b, x.length ≠ s.dimension) →
      s.incrementSample b = none) := by
  refine ⟨?_, ?_, ?_, ?_⟩
  · intro s x hx
    rw [IterativeMean.increment, if_neg hx]
  · intro s x hx
    rw [IterativeVariance.increment, if_neg hx]
  · intro s b hb
    exact IterativeMean.incrementSample_mismatch hb
  · intro s b hb
    exact IterativeVariance.incrementSample_mismatchV hb

/-- Claim C8: when the mean accumulator and the variance accumulator of the
same dimension absorb the identical sequence of observations, under any
splitting into calls, getMean agrees on both. -/
theorem claim_C8 (d : ℕ) (calls : List (List Vec)) (sM : IterativeMean)
    (sV : IterativeVariance)
    (hM : (IterativeMean.new d).incrementCalls calls = some sM)
    (hV : (IterativeVariance.new d).incrementCalls calls = some sV) :
    sV.getMean = sM.getMean := by
  rw [IterativeMean.incrementCalls_eq_flatten] at hM
  rw [IterativeVariance.incrementCalls_eq_flattenV] at hV
  exact (parallel_mu calls.flatten (IterativeMean.new d) (IterativeVariance.new d)
    rfl rfl rfl hM hV).symm

/-- Claim C4: for an IterativeMean of dimension d, increment with a point
of length d updates the running mean componentwise by
mu + (point - mu) / (n + 1) and the count by one; consequently, after any
sequence of valid increments from a fresh accumulator the running mean
equals the arithmetic mean of all absorbed observations. -/
theorem claim_C4 (d : ℕ) :
    (∀ (s : IterativeMean) (x : Vec), s.dimension = d → x.length = d →
      ∃ t, s.increment x = some t ∧
        t.getIteration = s.getIteration + 1 ∧
        ∀ j, j < d → j < s.mu.length →
          t.getMean.getD j 0 =
            s.getMean.getD j 0
              + (x.getD j 0 - s.getMean.getD j 0) / ((s.getIteration : ℚ) + 1)) ∧
    (∀ xs : List Vec, (∀ y ∈ xs, y.length = d) →
      ∃ t, (IterativeMean.new d).incrementSample xs = some t ∧
        t.getIteration = xs.length ∧
        ∀ j, j < d →
          t.getMean.getD j 0 * (xs.length : ℚ) = (col j xs).sum ∧
          (xs ≠ [] → t.getMean.getD j 0 = (col j xs).sum / (xs.length : ℚ))) := by
  constructor
  · intro s x hsd hx
    have hx2 : x.length = s.dimension := by rw [hx, hsd]
    refine ⟨{ dimension := s.dimension,
              mu := List.zipWith (meanUpdate s.iteration) s.mu x,
              iteration := s.iteration + 1 }, ?_, rfl, ?_⟩
    · rw [IterativeMean.increment, if_pos hx2]
    · intro j hj hjl
      have hjx : j < x.length := by omega
      show (List.zipWith (meanUpdate s.iteration) s.mu x).getD j 0 = _
      rw [getD_zipWith _ _ _ _ hjl hjx]
      rfl
  · intro xs hxs
    obtain ⟨t, ht, htd, hr⟩ := IterativeMean.incrementSample_represents xs
      (IterativeMean.new_represents d) (fun y hy => hxs y hy)
    obtain ⟨hlen, hiter, hcomp⟩ := hr
    have htd2 : t.dimension = d := htd
    refine ⟨t, ht, by simpa using hiter, ?_⟩
    intro j hj
    have hj2 : j < t.dimension := by omega
    have hc := hcomp j hj2
    rw [List.nil_append] at hc
    refine ⟨hc, ?_⟩
    intro hne
    have hlen0 : xs.length ≠ 0 := by
      intro h0
      exact hne (List.length_eq_zero.mp h0)
    have hlq : ((xs.length : ℚ)) ≠ 0 := by exact_mod_cast hlen0
    rw [eq_div_iff hlq]
    exact hc

/-- Claim C5: getIteration counts exactly the absorbed observation vectors:
it starts at 0, every successful increment call adds exactly its number of
rows, and after any sequence of single or batch calls from a fresh
accumulator it equals the total number of vectors fed, for the mean and
the variance accumulators alike. -/
theorem claim_C5 (d : ℕ) (calls : List (List Vec)) :
    (IterativeMean.new d).getIteration = 0 ∧
    (IterativeVariance.new d).getIteration = 0 ∧
    (∀ (s t : IterativeMean) (b : List Vec), s.incrementSample b = some t →
      t.getIteration = s.getIteration + b.length) ∧
    (∀ (s t : IterativeVariance) (b : List Vec), s.incrementSample b = some t →
      t.getIteration = s.getIteration + b.length) ∧
    (∀ sM : IterativeMean, (IterativeMean.new d).incrementCalls calls = some sM →
      sM.getIteration = calls.flatten.length) ∧
    (∀ sV : IterativeVariance, (IterativeVariance.new d).incrementCalls calls = some sV →
      sV.getIteration = calls.flatten.length) := by
  refine ⟨rfl, rfl, ?_, ?_, ?_, ?_⟩
  · intro s t b h
    exact (IterativeMean.incrementSample_some b h).2
  · intro s t b h
    exact (IterativeVariance.incrementSample_someV b h).2
  · intro sM h
    rw [IterativeMean.incrementCalls_eq_flatten] at h
    have := (IterativeMean.incrementSample_some calls.flatten h).2
    simpa [IterativeMean.getIteration, IterativeMean.new] using this
  · intro sV h
    rw [IterativeVariance.incrementCalls_eq_flattenV] at h
    have := (IterativeVariance.incrementSample_someV calls.flatten h).2
    simpa [IterativeVariance.getIteration, IterativeVariance.new] using this

/-- Claim C1: for every estimator kind of the Sobol accumulator family and
every well shaped output design of m repetitions, feeding the whole design
to incrementIndices in one call equals feeding it as m successive single
repetition calls (from any starting accumulator of matching dimensions),
and from a fresh accumulator the resulting state carries exactly the
closed form batch sums, so the streaming first order and total order index
vectors equal the batch formula ones on the same accumulated data (exact
rational sums stand in for the floating point tolerance). -/
theorem claim_C1 (kind : SobolEstimator) (p q m : ℕ) (design : List Vec)
    (hlen : design.length = (p + 2) * m) (hrows : ∀ row ∈ design, row.length = q) :
    (∀ s : SobolIndices, s.inputDimension = p → s.outputDimension = q →
      s.incrementIndices design =
        (List.range m).foldlM
          (fun t r => t.incrementIndices (repSlice p m design r)) s) ∧
    (∀ t, (SobolIndices.new kind p q).incrementIndices design = some t →
      t = batchState kind p q design ∧
      t.getFirstOrderIndices = (batchState kind p q design).getFirstOrderIndices ∧
      t.getTotalOrderIndices = (batchState kind p q design).getTotalOrderIndices) := by
  constructor
  · intro s hp hq
    rw [incrementIndices_full p q m design hp hq hlen hrows,
      foldlM_repSlice p q m design hlen hrows (List.range m) s hp hq
        (fun r hr => List.mem_range.mp hr),
      List.foldl_map]
  · intro t ht
    rw [incrementIndices_full p q m design rfl rfl hlen hrows] at ht
    cases ht
    have hb : ((List.range m).map (designRep p m design)).foldl SobolIndices.stepRep
        (SobolIndices.new kind p q) = batchState kind p q design := by
      rw [← designReps_eq p m design hlen]
      exact foldl_stepRep_new kind p q design
    exact ⟨hb, by rw [hb], by rw [hb]⟩

/-- Claim C9: replace in in place mode with a token that is never found
raises EOFError and leaves the content of the input file unchanged; the
parsed output sits in the temporary file, whose removal and move onto the
input file happen only after every token has been verified found. -/
theorem claim_C9 (search : String → String → Option String) (fuel : ℕ) (fs : FileSys)
    (infile : String) (outfile : Option String) (tokens values : List String)
    (hlen : tokens.length = values.length)
    (hinplace : outfile = none ∨ outfile = some infile)
    (lines : List String) (hread : fs infile = some lines)
    (hfail :
      (processLines search fuel (tokens.zip values) lines).2.all (fun b => b) = false) :
    (replace search fuel fs infile outfile tokens values).2 =
        some CouplingError.eofError ∧
    (replace search fuel fs infile outfile tokens values).1 infile = some lines ∧
    (replace search fuel fs infile outfile tokens values).1 (tempOutName infile) =
      some (processLines search fuel (tokens.zip values) lines).1 := by
  have hb : inplaceMode infile outfile = true := by
    rcases hinplace with h | h <;> simp [inplaceMode, h]
  have hout : replaceOut infile outfile = tempOutName infile := by
    rw [replaceOut, if_pos hb]
  have hrepl : replace search fuel fs infile outfile tokens values =
      (writeFile fs (replaceOut infile outfile)
        (processLines search fuel (tokens.zip values) lines).1,
       some CouplingError.eofError) := by
    rw [replace, if_neg (by omega)]
    simp only [hread]
    rw [if_neg (by rw [hfail]; exact Bool.false_ne_true)]
  refine ⟨by rw [hrepl], ?_, ?_⟩
  · rw [hrepl, hout]
    show writeFile fs (tempOutName infile) _ infile = some lines
    rw [writeFile, if_neg (fun hcon => tempOutName_ne infile hcon.symm), hread]
  · rw [hrepl, hout]
    show writeFile fs (tempOutName infile) _ (tempOutName infile) = _
    rw [writeFile, if_pos rfl]

/-- Claim C10: the value get_regex returns for a pattern is the one parsed
from the last line matching it (every later match overwrites the earlier
result), and EOFError is raised exactly when some pattern matches no line
at all. -/
theorem claim_C10 (matchLine : String → String → Option ℚ) (lines : List String)
    (patterns : List String) (hne : patterns.length ≠ 0) :
    (∀ out, get_regex matchLine lines patterns = Except.ok out →
      ∀ i, i < patterns.length →
        (lines.filterMap (matchLine (patterns.getD i ""))).getLast? =
          some (out.getD i 0)) ∧
    (get_regex matchLine lines patterns = Except.error CouplingError.eofError ↔
      ∃ i, i < patterns.length ∧
        lines.filterMap (matchLine (patterns.getD i "")) = []) := by
  have hrl : (regexResults matchLine patterns lines).length = patterns.length :=
    regexScan_length matchLine patterns lines _ (List.length_replicate _ _)
  have hget : ∀ i, i < patterns.length →
      (regexResults matchLine patterns lines).getD i none =
        (lines.filterMap (matchLine (patterns.getD i ""))).getLast? := by
    intro i hi
    rw [regexResults, regexScan_getD matchLine patterns lines _
      (List.length_replicate _ _) i hi, getD_replicate_self]
    cases (lines.filterMap (matchLine (patterns.getD i ""))).getLast? <;> rfl
  constructor
  · intro out hout i hi
    rw [get_regex, if_neg hne] at hout
    by_cases hall : (regexResults matchLine patterns lines).all Option.isSome = true
    · rw [if_pos hall] at hout
      cases hout
      have hm : (regexResults matchLine patterns lines).getD i none ∈
          regexResults matchLine patterns lines :=
        getD_mem _ i none (by omega)
      have hsome := List.all_eq_true.mp hall _ hm
      obtain ⟨v, hv⟩ := Option.isSome_iff_exists.mp hsome
      have hgd : ((regexResults matchLine patterns lines).map
          (fun r => r.getD 0)).getD i 0 = v := by
        have h0 : (0 : ℚ) = (none : Option ℚ).getD 0 := rfl
        nth_rewrite 2 [h0]
        rw [List.getD_map, hv]
        rfl
      rw [hgd, ← hv, hget i hi]
    · rw [if_neg hall] at hout
      cases hout
  · rw [get_regex, if_neg hne]
    constructor
    · intro herr
      by_cases hall : (regexResults matchLine patterns lines).all Option.isSome = true
      · rw [if_pos hall] at herr
        cases herr
      · rcases List.all_eq_true.not.mp hall with hnall
        push_neg at hnall
        obtain ⟨x, hxm, hxn⟩ := hnall
        obtain ⟨i, hil, hix⟩ := List.mem_iff_getElem.mp hxm
        have hxnone : x = none := by
          cases x with
          | none => rfl
          | some v => simp at hxn
        refine ⟨i, by omega, ?_⟩
        rw [← List.getLast?_eq_none_iff, ← hget i (by omega)]
        rw [List.getD_eq_getElem _ none (by omega), hix, hxnone]
    · intro ⟨i, hi, hempty⟩
      have hnone : (regexResults matchLine patterns lines).getD i none = none := by
        rw [hget i hi, hempty]
        rfl
      have hmem : (none : Option ℚ) ∈ regexResults matchLine patterns lines := by
        rw [← hnone]
        exact getD_mem _ i none (by omega)
      rw [if_neg (by
        intro hall
        have := List.all_eq_true.mp hall _ hmem
        simp at this)]

/-- Worked instance of claim C1 on a one repetition Saltelli design. -/
theorem claim_C1_witness :
    (SobolIndices.new SobolEstimator.saltelli 1 1).incrementIndices [[1], [2], [3]] =
      (List.range 1).foldlM
        (fun t r => t.incrementIndices (repSlice 1 1 [[1], [2], [3]] r))
        (SobolIndices.new SobolEstimator.saltelli 1 1) :=
  (claim_C1 SobolEstimator.saltelli 1 1 1 [[1], [2], [3]] (by decide) (by decide)).1
    (SobolIndices.new SobolEstimator.saltelli 1 1) rfl rfl

/-- Worked instance of claim C2: one single point call then one batch call
act like one batch over all three points. -/
theorem claim_C2_witness :
    (IterativeMean.new 1).incrementCalls [[[1]], [[2], [3]]] =
      (IterativeMean.new 1).incrementSample [[1], [2], [3]] :=
  (claim_C2 1 [[[1]], [[2], [3]]] (by decide)).1

/-- Worked instance of claim C3 on the first increment of a fresh one
dimensional variance accumulator. -/
theorem claim_C3_witness :
    ({ dimension := 1, mu := [2], m2 := [0], iteration := 1 } :
          IterativeVariance).getMean.getD 0 0 =
        (IterativeVariance.new 1).getMean.getD 0 0 +
          (([2] : Vec).getD 0 0 - (IterativeVariance.new 1).getMean.getD 0 0) /
            (((IterativeVariance.new 1).getIteration : ℚ) + 1) ∧
    ({ dimension := 1, mu := [2], m2 := [0], iteration := 1 } :
          IterativeVariance).m2.getD 0 0 =
        (IterativeVariance.new 1).m2.getD 0 0 +
          (([2] : Vec).getD 0 0 - (IterativeVariance.new 1).getMean.getD 0 0) *
            (([2] : Vec).getD 0 0 -
              ({ dimension := 1, mu := [2], m2 := [0], iteration := 1 } :
                IterativeVariance).getMean.getD 0 0) :=
  claim_C3.1 (IterativeVariance.new 1) [2]
    { dimension := 1, mu := [2], m2 := [0], iteration := 1 }
    (by norm_num [IterativeVariance.new, IterativeVariance.increment, meanUpdate,
      m2Update, List.replicate, List.zipWith3])
    0 (by decide) (by decide) (by decide)

/-- Worked instance of claim C4 on two points in dimension 2. -/
theorem claim_C4_witness :
    ∃ t, (IterativeMean.new 2).incrementSample [[1, 3], [5, 7]] = some t ∧
      t.getIteration = ([[1, 3], [5, 7]] : List Vec).length ∧
      ∀ j, j < 2 →
        t.getMean.getD j 0 * ((([[1, 3], [5, 7]] : List Vec).length : ℚ)) =
          (col j [[1, 3], [5, 7]]).sum ∧
        (([[1, 3], [5, 7]] : List Vec) ≠ [] →
          t.getMean.getD j 0 =
            (col j [[1, 3], [5, 7]]).sum / ((([[1, 3], [5, 7]] : List Vec).length : ℚ))) :=
  (claim_C4 2).2 [[1, 3], [5, 7]] (by decide)

/-- Worked instance of claim C5 on the concrete scenario of the spec:
fifty single point calls then one batch of fifty points give one hundred
iterations. -/
theorem claim_C5_witness :
    ∃ sM : IterativeMean,
      (IterativeMean.new 5).incrementCalls fixtureCalls = some sM ∧
      sM.getIteration = 100 := by
  obtain ⟨sM, hM, _, _⟩ := IterativeMean.incrementSample_represents fixtureCalls.flatten
    (IterativeMean.new_represents 5) (by decide)
  have hM2 : (IterativeMean.new 5).incrementCalls fixtureCalls = some sM := by
    rw [IterativeMean.incrementCalls_eq_flatten]
    exact hM
  refine ⟨sM, hM2, ?_⟩
  have h := (claim_C5 5 fixtureCalls).2.2.2.2.1 sM hM2
  rw [h]
  decide

/-- Worked instance of claim C6 on two one dimensional observations. -/
theorem claim_C6_witness :
    0 ≤ ({ dimension := 1, mu := [2], m2 := [2], iteration := 2 } :
      IterativeVariance).getVariance.getD 0 0 :=
  claim_C6 1 [[1], [3]] (by decide)
    { dimension := 1, mu := [2], m2 := [2], iteration := 2 }
    (by norm_num [IterativeVariance.new, IterativeVariance.incrementSample,
      IterativeVariance.increment, meanUpdate, m2Update, List.replicate, List.zipWith3,
      List.foldlM])
    (by decide) 0 (by decide)

/-- Worked instance of claim C7: the dimension mismatch test of the spec,
a five dimensional accumulator fed a four entry vector. -/
theorem claim_C7_witness :
    (IterativeMean.new 5).increment [1, 2, 3, 4] = none :=
  claim_C7.1 (IterativeMean.new 5) [1, 2, 3, 4] (by decide)

/-- Worked instance of claim C8 on two one dimensional observations. -/
theorem claim_C8_witness :
    ({ dimension := 1, mu := [2], m2 := [2], iteration := 2 } :
        IterativeVariance).getMean =
      ({ dimension := 1, mu := [2], iteration := 2 } : IterativeMean).getMean :=
  claim_C8 1 [[[1]], [[3]]] { dimension := 1, mu := [2], iteration := 2 }
    { dimension := 1, mu := [2], m2 := [2], iteration := 2 }
    (by norm_num [IterativeMean.new, IterativeMean.incrementCalls,
      IterativeMean.incrementSample, IterativeMean.increment, meanUpdate,
      List.replicate, List.foldlM])
    (by norm_num [IterativeVariance.new, IterativeVariance.incrementCalls,
      IterativeVariance.incrementSample, IterativeVariance.increment, meanUpdate,
      m2Update, List.replicate, List.zipWith3, List.foldlM])

/-- Worked instance of claim C9: in place replace with a token that is
never found reports EOFError, keeps the input file intact and leaves the
parsed lines in the temporary file. -/
theorem claim_C9_witness :
    (replace searchNone 1 fixtureFS fixtureIn none fixtureTokens fixtureValues).2 =
        some CouplingError.eofError ∧
    (replace searchNone 1 fixtureFS fixtureIn none fixtureTokens fixtureValues).1
        fixtureIn = some fixtureLines ∧
    (replace searchNone 1 fixtureFS fixtureIn none fixtureTokens fixtureValues).1
        (tempOutName fixtureIn) =
      some (processLines searchNone 1 (fixtureTokens.zip fixtureValues) fixtureLines).1 :=
  claim_C9 searchNone 1 fixtureFS fixtureIn none fixtureTokens fixtureValues rfl
    (Or.inl rfl) fixtureLines (by decide) (by decide)

/-- Worked instance of claim C10: a pattern that matches no line makes
get_regex raise EOFError. -/
theorem claim_C10_witness :
    get_regex matchNone fixtureLines fixtureTokens =
      Except.error CouplingError.eofError :=
  (claim_C10 matchNone fixtureLines fixtureTokens (by decide)).2.mpr
    ⟨0, by decide, by decide⟩

end OpenTURNS
